import Mathlib

/-!
# Verification of the EM-algorithm repository's preprocessing and metrics modules

Shallow embedding of `src/metrics.py` and `src/preprocessing.py`.

Conventions of the embedding:
* Python `int` is modelled by `ℤ`; non-negative counters and indices by `ℕ`.
* Python `set` of `(int, int)` tuples is modelled by `Finset (ℤ × ℤ)`,
  built from a list via `List.toFinset` (which collapses duplicates exactly
  as `set(...)` does).
* Python `dict` (insertion-ordered, unique keys) is modelled by an
  association list `List (String × ℕ)` in insertion order.
* A raised exception (`ZeroDivisionError`, `ValueError`, `IndexError`)
  aborts the computation; this is modelled by `Option`/`Except` with
  `none`/`error` standing for the propagated exception.
* Python float division `a / b` with integer operands is modelled by exact
  division in `ℚ`; all concrete values appearing in the claims are exactly
  representable, so no rounding question arises.
-/

/-- `LabeledAlignment` from `src/preprocessing.py`: lists of
`(source_pos, target_pos)` tuples for the sure and possible alignments of
one sentence.  The dataclass declares `List[Tuple[int, int]]`, modelled as
`List (ℤ × ℤ)`. -/
structure LabeledAlignment where
  sure : List (ℤ × ℤ)
  possible : List (ℤ × ℤ)

/-- `SentencePair` from `src/preprocessing.py`: lists of tokens (strings)
for the source and target sentence. -/
structure SentencePair where
  source : List String
  target : List String

/-- `TokenizedSentencePair` from `src/preprocessing.py`: arrays of token
vocabulary indices for the source and target sentence.  The numpy
`int32` arrays hold vocabulary indices, which are non-negative, so they
are modelled as `List ℕ`. -/
structure TokenizedSentencePair where
  source_tokens : List ℕ
  target_tokens : List ℕ
  deriving DecidableEq

/-! ## `src/metrics.py` -/

/-- Loop body of `compute_precision` (`src/metrics.py` lines 23-29):
for one `(la, predicted_al)` pair of the `zip`, build the Python sets,
union `sure` into `possible` (`set_possible |= set_sure`), and add
`len(set_predicted)` to the denominator and
`len(set_possible & set_predicted)` to the numerator. -/
def precisionStep (acc : ℕ × ℕ) (lp : LabeledAlignment × List (ℤ × ℤ)) : ℕ × ℕ :=
  let set_sure := lp.1.sure.toFinset
  let set_possible := lp.1.possible.toFinset
  let set_predicted := lp.2.toFinset
  let set_possible := set_possible ∪ set_sure
  (acc.1 + (set_possible ∩ set_predicted).card, acc.2 + set_predicted.card)

/-- `compute_precision` from `src/metrics.py`: accumulates the numerator and
denominator over `zip(reference, predicted)` starting from `(0, 0)`. -/
def compute_precision (reference : List LabeledAlignment)
    (predicted : List (List (ℤ × ℤ))) : ℕ × ℕ :=
  (reference.zip predicted).foldl precisionStep (0, 0)

/-- Loop body of `compute_recall` (`src/metrics.py` lines 49-53): add
`len(set_sure)` to the denominator and `len(set_predicted & set_sure)`
to the numerator. -/
def recallStep (acc : ℕ × ℕ) (lp : LabeledAlignment × List (ℤ × ℤ)) : ℕ × ℕ :=
  let set_sure := lp.1.sure.toFinset
  let set_predicted := lp.2.toFinset
  (acc.1 + (set_predicted ∩ set_sure).card, acc.2 + set_sure.card)

/-- `compute_recall` from `src/metrics.py`. -/
def compute_recall (reference : List LabeledAlignment)
    (predicted : List (List (ℤ × ℤ))) : ℕ × ℕ :=
  (reference.zip predicted).foldl recallStep (0, 0)

/-- `compute_aer` from `src/metrics.py`:
`1 - (pr_num + re_num) / (pr_den + re_den)`.  When the denominator sum is
`0`, Python's integer true-division raises `ZeroDivisionError`; the raised
exception is modelled by `none`. -/
def compute_aer (reference : List LabeledAlignment)
    (predicted : List (List (ℤ × ℤ))) : Option ℚ :=
  let pr := compute_precision reference predicted
  let re := compute_recall reference predicted
  if pr.2 + re.2 = 0 then none
  else some (1 - ((pr.1 : ℚ) + re.1) / ((pr.2 : ℚ) + re.2))

/-! ## `src/preprocessing.py`: Python dict model -/

/-- A Python `dict` mapping tokens to indices: an association list in
insertion order with (by construction) unique keys. -/
abbrev PyDict := List (String × ℕ)

/-- Python `word in d` for a dict `d`. -/
def dictContains (d : PyDict) (w : String) : Bool :=
  d.any (fun p => p.1 == w)

/-- Python `d[word]` lookup, `none` when the key is absent. -/
def dictGet (d : PyDict) (w : String) : Option ℕ :=
  (d.find? (fun p => p.1 == w)).map (fun p => p.2)

/-! ## `get_token_to_index` (`src/preprocessing.py` lines 83-126) -/

/-- Inner-loop body of the `freq_cutoff is None` branch (lines 101-109):
`if word not in d: d[word] = counter; counter += 1`.  A new dict entry is
appended at the end (Python dicts preserve insertion order). -/
def vocabStep (dc : PyDict × ℕ) (w : String) : PyDict × ℕ :=
  if dictContains dc.1 w then dc else (dc.1 ++ [(w, dc.2)], dc.2 + 1)

/-- One token's contribution to `counter += Counter(tokens)` (lines
113-115): an existing key's count is incremented in place (keeping its
position), a new key is appended with count 1.  Folding this token by
token produces exactly the key order and counts of the Python `Counter`
after the loop: keys in first-occurrence order of the scan. -/
def counterUpdate (c : List (String × ℕ)) (w : String) : List (String × ℕ) :=
  if c.any (fun p => p.1 == w) then
    c.map (fun p => if p.1 == w then (p.1, p.2 + 1) else p)
  else c ++ [(w, 1)]

/-- `counter += Counter(tokens)` for one sentence's token list. -/
def counterAdd (c : List (String × ℕ)) (tokens : List String) : List (String × ℕ) :=
  tokens.foldl counterUpdate c

/-- Stable insertion (descending by count) used to model
`Counter.most_common()`. -/
def insertByCount (x : String × ℕ) : List (String × ℕ) → List (String × ℕ)
  | [] => [x]
  | y :: ys => if y.2 ≤ x.2 then x :: y :: ys else y :: insertByCount x ys

/-- `Counter.most_common()` (lines 116-117): a stable sort of the counter
items by descending count, ties kept in counter (first-occurrence)
order — CPython implements it as `sorted(items, key=count, reverse=True)`,
a stable sort. -/
def most_common (c : List (String × ℕ)) : List (String × ℕ) :=
  c.foldr insertByCount []

/-- `get_token_to_index` from `src/preprocessing.py`.  The `None`-cutoff
branch folds `vocabStep` over the source and target tokens of each
sentence pair (the two dict/counter states are independent, so they are
carried as a pair).  The cutoff branch builds the two counters, sorts them
with `most_common`, and enumerates the first `k` items
(`if index >= freq_cutoff: break`) as dict entries `token ↦ index`. -/
def get_token_to_index (sentence_pairs : List SentencePair)
    (freq_cutoff : Option ℕ) : PyDict × PyDict :=
  match freq_cutoff with
  | none =>
      let st := sentence_pairs.foldl
        (fun (st : (PyDict × ℕ) × (PyDict × ℕ)) sp =>
          (sp.source.foldl vocabStep st.1, sp.target.foldl vocabStep st.2))
        ((([] : PyDict), 0), (([] : PyDict), 0))
      (st.1.1, st.2.1)
  | some k =>
      let cs := sentence_pairs.foldl (fun c sp => counterAdd c sp.source) []
      let ct := sentence_pairs.foldl (fun c sp => counterAdd c sp.target) []
      (((most_common cs).take k).enum.map (fun p => (p.2.1, p.1)),
       ((most_common ct).take k).enum.map (fun p => (p.2.1, p.1)))

/-! ## `tokenize_sents` (`src/preprocessing.py` lines 129-165) -/

/-- One side of the `tokenize_sents` loop (lines 148-153 resp. 156-161):
map the tokens through the dict in order, short-circuiting to `none`
(`flag = True; break`) at the first out-of-vocabulary token. -/
def mapTokens (d : PyDict) : List String → Option (List ℕ)
  | [] => some []
  | w :: ws =>
      match dictGet d w with
      | none => none
      | some i => (mapTokens d ws).map (fun rest => i :: rest)

/-- `tokenize_sents` from `src/preprocessing.py`: for each sentence pair,
emit the tokenized pair only when both sides map fully; an OOV token on
either side skips the pair (`continue`). -/
def tokenize_sents (sentence_pairs : List SentencePair)
    (source_dict target_dict : PyDict) : List TokenizedSentencePair :=
  sentence_pairs.foldl
    (fun res sp =>
      match mapTokens source_dict sp.source with
      | none => res
      | some src =>
          match mapTokens target_dict sp.target with
          | none => res
          | some tgt => res ++ [⟨src, tgt⟩])
    []

/-! ## `extract_sentences` (`src/preprocessing.py` lines 37-80)

The file read and the `xml.etree.ElementTree` parse are external-library
calls; the repository's own code that the claims address is (a) the
pre-parse normalization `all_text.replace('&', '&amp;')` on line 53 and
(b) the per-block field extraction loop on lines 57-79, which receives
each XML block as its (up to) four children's text contents. -/

/-- Line 53: `all_text.replace('&', '&amp;')`.  The pattern is the single
character `&`, so `str.replace` substitutes every occurrence of `&`
(Python's replace is unconditional - it does not skip ampersands that are
already part of an escape). -/
def escapeAmpersands (s : List Char) : List Char :=
  s.flatMap (fun c => if c = '&' then ['&', 'a', 'm', 'p', ';'] else [c])

/-- Every `&` in the list starts an `&amp;` escape sequence. -/
def ampsEscaped : List Char → Bool
  | [] => true
  | c :: rest =>
      if c = '&' then List.isPrefixOf ['a', 'm', 'p', ';'] rest && ampsEscaped rest
      else ampsEscaped rest

/-- Value of one decimal digit character. -/
def digitVal (c : Char) : ℕ := c.toNat - '0'.toNat

/-- Magnitude of a digit string. -/
def digitsToNat (l : List Char) : ℕ :=
  l.foldl (fun n c => 10 * n + digitVal c) 0

/-- Python `int(s)` on the character list of `s` after whitespace
stripping: an optional sign followed by one or more decimal digits;
anything else raises `ValueError` (`none`).  (CPython additionally
accepts underscore digit grouping and non-ASCII digits; the corpus
alignment fields contain neither, and no claim depends on them.) -/
def pyIntCore : List Char → Option ℤ
  | [] => none
  | '+' :: rest =>
      if rest ≠ [] && rest.all Char.isDigit then some (digitsToNat rest) else none
  | '-' :: rest =>
      if rest ≠ [] && rest.all Char.isDigit then some (-(digitsToNat rest : ℤ)) else none
  | cs => if cs.all Char.isDigit then some (digitsToNat cs) else none

/-- Python `int(s)`: strips surrounding whitespace, then parses an
optionally signed decimal integer; `none` models the raised
`ValueError`. -/
def pyInt (s : String) : Option ℤ :=
  pyIntCore (((s.data.dropWhile Char.isWhitespace).reverse.dropWhile
    Char.isWhitespace).reverse)

/-- Python `s.split(sep)` for a single-character separator: the chunks
between occurrences of `sep`, empty chunks preserved (`"".split(sep)`
is `[""]`). -/
def splitOnChar (sep : Char) : List Char → List (List Char)
  | [] => [[]]
  | c :: rest =>
      match splitOnChar sep rest with
      | [] => [[c]]
      | p :: ps => if c = sep then [] :: p :: ps else (c :: p) :: ps

/-- Python `s.split(sep)` on strings. -/
def pySplitChar (sep : Char) (s : String) : List String :=
  (splitOnChar sep s.data).map (fun l => String.mk l)

/-- Apply `f` to every element, aborting at the first failure — the
effect of a raised exception inside Python's `map`/`tuple` evaluation. -/
def mapOptionAll {α β : Type} (f : α → Option β) : List α → Option (List β)
  | [] => some []
  | x :: xs =>
      match f x with
      | none => none
      | some y => (mapOptionAll f xs).map (fun ys => y :: ys)

/-- Lines 76/78: `tuple(map(int, s.split('-')))`.  The result is a tuple
of however many hyphen-separated components the string has (no arity
check), modelled as a `List ℤ`; a component that is not an integer
raises `ValueError` (`none`). -/
def parsePairStr (s : String) : Option (List ℤ) :=
  mapOptionAll pyInt (pySplitChar '-' s)

/-- Lines 58-74: a child element's text is `None` (`none`) or a string;
`None` yields `[]`, otherwise the text is split on single spaces. -/
def splitField : Option String → List String
  | none => []
  | some t => pySplitChar ' ' t

/-- The alignments extracted from one block: tuples of arbitrary arity,
exactly as `tuple(map(int, ...))` produces them. -/
structure RawLabeledAlignment where
  sure : List (List ℤ)
  possible : List (List ℤ)
  deriving DecidableEq

/-- Loop body of `extract_sentences` (lines 57-79) for one XML block,
given the list of the block's children's texts.  Following the source's
evaluation order, `block[0]` through `block[3]` are accessed first
(`block[i]` beyond the last child raises `IndexError`), then the sure
pairs and then the possible pairs are integer-parsed (a malformed
integer raises `ValueError`); any exception aborts the extraction
(`Except.error`). -/
def extractBlock (block : List (Option String)) :
    Except String (SentencePair × RawLabeledAlignment) :=
  match block.get? 0, block.get? 1, block.get? 2, block.get? 3 with
  | some t0, some t1, some t2, some t3 =>
      match mapOptionAll parsePairStr (splitField t2) with
      | none => Except.error "ValueError: invalid literal for int"
      | some sure =>
          match mapOptionAll parsePairStr (splitField t3) with
          | none => Except.error "ValueError: invalid literal for int"
          | some possible =>
              Except.ok (⟨splitField t0, splitField t1⟩, ⟨sure, possible⟩)
  | _, _, _, _ => Except.error "IndexError: block child index out of range"

/-- Process each element in order, aborting at the first raised
exception — the effect of a Python `for` loop whose body can raise. -/
def mapExceptAll {α β : Type} (f : α → Except String β) :
    List α → Except String (List β)
  | [] => Except.ok []
  | x :: xs =>
      match f x with
      | Except.error e => Except.error e
      | Except.ok y =>
          match mapExceptAll f xs with
          | Except.error e => Except.error e
          | Except.ok ys => Except.ok (y :: ys)

/-- `extract_sentences` restricted to its per-block loop (lines 57-79):
processes the blocks in order; the first exception aborts the whole
function with that exception. -/
def extract_sentences_blocks (blocks : List (List (Option String))) :
    Except String (List SentencePair × List RawLabeledAlignment) :=
  match mapExceptAll extractBlock blocks with
  | Except.error e => Except.error e
  | Except.ok l => Except.ok (l.map (fun p => p.1), l.map (fun p => p.2))

/-! ## Declarative per-sentence counts (spec section 4.4)

`precNum`/`precDen`/`recallNum`/`recallDen` state the spec's per-sentence
formulas; the refinement theorems below relate the accumulator loops of
`src/metrics.py` to these sums. -/

/-- Spec formula: `|predicted ∩ (possible ∪ sure)|` for one sentence. -/
def precNum (lp : LabeledAlignment × List (ℤ × ℤ)) : ℕ :=
  ((lp.1.possible.toFinset ∪ lp.1.sure.toFinset) ∩ lp.2.toFinset).card

/-- Spec formula: `|predicted|` (as a set) for one sentence. -/
def precDen (lp : LabeledAlignment × List (ℤ × ℤ)) : ℕ :=
  lp.2.toFinset.card

/-- Spec formula: `|predicted ∩ sure|` for one sentence. -/
def recallNum (lp : LabeledAlignment × List (ℤ × ℤ)) : ℕ :=
  (lp.2.toFinset ∩ lp.1.sure.toFinset).card

/-- Spec formula: `|sure|` (as a set) for one sentence. -/
def recallDen (lp : LabeledAlignment × List (ℤ × ℤ)) : ℕ :=
  lp.1.sure.toFinset.card

/-! ## Spec-side descriptions for the vocabulary builder and tokenizer -/

/-- Spec: scan tokens left to right, appending each token not seen
before, continuing from an already-seen key list `acc` — the distinct
tokens in first-occurrence order. -/
def firstOccFrom (acc : List String) (l : List String) : List String :=
  l.foldl (fun seen w => if seen.any (fun k => k == w) then seen else seen ++ [w]) acc

/-- Spec: the distinct tokens of `l` in first-occurrence order. -/
def firstOcc (l : List String) : List String := firstOccFrom [] l

/-- Spec: the dict mapping the `i`-th key of `ks` to index `n + i`. -/
def withIndicesFrom (n : ℕ) : List String → PyDict
  | [] => []
  | k :: ks => (k, n) :: withIndicesFrom (n + 1) ks

/-- Spec: the dict mapping the `i`-th key of `ks` to index `i` —
unique indices, contiguous from `0`, in key order. -/
def withIndices (ks : List String) : PyDict := withIndicesFrom 0 ks

/-- Spec-side tokenizer (claim C6's words): keep exactly the sentence
pairs all of whose tokens are keys of the respective vocabulary, in
their original relative order, and map each token to its index. -/
def tokenizeSpec (sps : List SentencePair) (sd td : PyDict) :
    List TokenizedSentencePair :=
  (sps.filter (fun sp =>
      sp.source.all (dictContains sd) && sp.target.all (dictContains td))).map
    (fun sp => ⟨sp.source.map (fun w => (dictGet sd w).getD 0),
                sp.target.map (fun w => (dictGet td w).getD 0)⟩)

theorem foldl_pair_add {α : Type} (f g : α → ℕ) :
    ∀ (l : List α) (a b : ℕ),
      l.foldl (fun acc x => (acc.1 + f x, acc.2 + g x)) (a, b)
        = (a + (l.map f).sum, b + (l.map g).sum) := by
  intro l
  induction l with
  | nil => intro a b; simp
  | cons x xs ih =>
      intro a b
      simp [List.foldl_cons, ih, Nat.add_assoc]

theorem compute_precision_eq (reference : List LabeledAlignment)
    (predicted : List (List (ℤ × ℤ))) :
    compute_precision reference predicted
      = (((reference.zip predicted).map precNum).sum,
         ((reference.zip predicted).map precDen).sum) := by
  have hstep : precisionStep
      = fun (acc : ℕ × ℕ) lp => (acc.1 + precNum lp, acc.2 + precDen lp) := rfl
  simp only [compute_precision, hstep, foldl_pair_add, Nat.zero_add]

theorem compute_recall_eq (reference : List LabeledAlignment)
    (predicted : List (List (ℤ × ℤ))) :
    compute_recall reference predicted
      = (((reference.zip predicted).map recallNum).sum,
         ((reference.zip predicted).map recallDen).sum) := by
  have hstep : recallStep
      = fun (acc : ℕ × ℕ) lp => (acc.1 + recallNum lp, acc.2 + recallDen lp) := rfl
  simp only [compute_recall, hstep, foldl_pair_add, Nat.zero_add]

theorem dedup_toFinset_pairs (l : List (ℤ × ℤ)) : l.dedup.toFinset = l.toFinset := by
  ext x
  simp

/-- C2: `compute_precision` returns the summed spec counts: numerator
`Σ |predicted ∩ (possible ∪ sure)|`, denominator `Σ |predicted|`, with
`sure` unioned into `possible` before intersecting, and duplicate
predicted pairs collapsed under set semantics (deduplicating any
sentence's predicted list does not change the result). -/
theorem compute_precision_spec (reference : List LabeledAlignment)
    (predicted : List (List (ℤ × ℤ))) :
    compute_precision reference predicted
      = (((reference.zip predicted).map precNum).sum,
         ((reference.zip predicted).map precDen).sum)
    ∧ compute_precision reference (predicted.map List.dedup)
      = compute_precision reference predicted := by
  refine ⟨compute_precision_eq reference predicted, ?_⟩
  rw [compute_precision_eq, compute_precision_eq, List.zip_map_right]
  simp only [List.map_map]
  have h1 : precNum ∘ Prod.map id List.dedup = precNum := by
    funext lp
    simp [precNum, Prod.map, dedup_toFinset_pairs]
  have h2 : precDen ∘ Prod.map id List.dedup = precDen := by
    funext lp
    simp [precDen, Prod.map, dedup_toFinset_pairs]
  rw [h1, h2]

/-- C3: `compute_recall` returns the summed spec counts: numerator
`Σ |predicted ∩ sure|`, denominator `Σ |sure|`. -/
theorem compute_recall_spec (reference : List LabeledAlignment)
    (predicted : List (List (ℤ × ℤ))) :
    compute_recall reference predicted
      = (((reference.zip predicted).map recallNum).sum,
         ((reference.zip predicted).map recallDen).sum) :=
  compute_recall_eq reference predicted

/-- C5: precision and recall numerators never exceed their denominators,
and any AER value actually returned (nonzero combined denominator) lies
in `[0, 1]`. -/
theorem metrics_bounded (reference : List LabeledAlignment)
    (predicted : List (List (ℤ × ℤ))) :
    (compute_precision reference predicted).1 ≤ (compute_precision reference predicted).2
    ∧ (compute_recall reference predicted).1 ≤ (compute_recall reference predicted).2
    ∧ ∀ q : ℚ, compute_aer reference predicted = some q → 0 ≤ q ∧ q ≤ 1 := by
  have hp : (compute_precision reference predicted).1
      ≤ (compute_precision reference predicted).2 := by
    rw [compute_precision_eq]
    exact List.sum_le_sum fun lp _ => Finset.card_le_card Finset.inter_subset_right
  have hr : (compute_recall reference predicted).1
      ≤ (compute_recall reference predicted).2 := by
    rw [compute_recall_eq]
    exact List.sum_le_sum fun lp _ => Finset.card_le_card Finset.inter_subset_right
  refine ⟨hp, hr, ?_⟩
  intro q hq
  simp only [compute_aer] at hq
  by_cases hc : (compute_precision reference predicted).2
      + (compute_recall reference predicted).2 = 0
  · rw [if_pos hc] at hq
    cases hq
  · rw [if_neg hc] at hq
    have hq' := Option.some.inj hq
    subst hq'
    have hden : (0 : ℚ) < ((compute_precision reference predicted).2 : ℚ)
        + ((compute_recall reference predicted).2 : ℚ) := by
      have : 0 < (compute_precision reference predicted).2
          + (compute_recall reference predicted).2 := Nat.pos_of_ne_zero hc
      exact_mod_cast this
    have hle : ((compute_precision reference predicted).1 : ℚ)
        + ((compute_recall reference predicted).1 : ℚ)
        ≤ ((compute_precision reference predicted).2 : ℚ)
        + ((compute_recall reference predicted).2 : ℚ) := by
      exact_mod_cast Nat.add_le_add hp hr
    have hnum : (0 : ℚ) ≤ ((compute_precision reference predicted).1 : ℚ)
        + ((compute_recall reference predicted).1 : ℚ) := by positivity
    constructor
    · rw [sub_nonneg]
      exact (div_le_one hden).mpr hle
    · have : (0 : ℚ) ≤ (((compute_precision reference predicted).1 : ℚ)
          + ((compute_recall reference predicted).1 : ℚ))
          / (((compute_precision reference predicted).2 : ℚ)
          + ((compute_recall reference predicted).2 : ℚ)) :=
        div_nonneg hnum hden.le
      linarith

/-- C5 witness: at `reference = [⟨sure = [], possible = []⟩]`,
`predicted = [[(1, 1)]]` the AER is defined and the bounds hold. -/
theorem metrics_bounded_witness :
    (0 : ℚ) ≤ 1 ∧ (1 : ℚ) ≤ 1 := by
  have h1 : compute_precision [⟨[], []⟩] [[(1, 1)]] = (0, 1) := by decide
  have h2 : compute_recall [⟨[], []⟩] [[(1, 1)]] = (0, 0) := by decide
  have haer : compute_aer [⟨[], []⟩] [[(1, 1)]] = some 1 := by
    simp only [compute_aer, h1, h2]
    simp
  exact (metrics_bounded [⟨[], []⟩] [[(1, 1)]]).2.2 1 haer

/-- C1: with a nonzero combined denominator, `compute_aer` returns
`1 - (pr_num + re_num) / (pr_den + re_den)`, recombining the raw summed
counts returned by `compute_precision` and `compute_recall`; and on the
spec's scenario (`sure = [(1,1)]`, `possible = [(1,1),(2,2)]`,
`predicted = [(1,1),(2,2)]`) it returns `0`. -/
theorem compute_aer_formula :
    (∀ (reference : List LabeledAlignment) (predicted : List (List (ℤ × ℤ))),
      (compute_precision reference predicted).2 + (compute_recall reference predicted).2 ≠ 0 →
      compute_aer reference predicted
        = some (1 - (((compute_precision reference predicted).1 : ℚ)
              + ((compute_recall reference predicted).1 : ℚ))
            / (((compute_precision reference predicted).2 : ℚ)
              + ((compute_recall reference predicted).2 : ℚ))))
    ∧ compute_aer [⟨[(1, 1)], [(1, 1), (2, 2)]⟩] [[(1, 1), (2, 2)]] = some 0 := by
  constructor
  · intro reference predicted h
    simp only [compute_aer, if_neg h]
  · have h1 : compute_precision [⟨[(1, 1)], [(1, 1), (2, 2)]⟩] [[(1, 1), (2, 2)]]
        = (2, 2) := by decide
    have h2 : compute_recall [⟨[(1, 1)], [(1, 1), (2, 2)]⟩] [[(1, 1), (2, 2)]]
        = (1, 1) := by decide
    simp only [compute_aer, h1, h2]
    norm_num

/-- C1 witness: the formula instantiated at the spec's scenario. -/
theorem compute_aer_formula_witness :
    compute_aer [⟨[(1, 1)], [(1, 1), (2, 2)]⟩] [[(1, 1), (2, 2)]]
      = some (1 - (((compute_precision [⟨[(1, 1)], [(1, 1), (2, 2)]⟩]
            [[(1, 1), (2, 2)]]).1 : ℚ)
          + ((compute_recall [⟨[(1, 1)], [(1, 1), (2, 2)]⟩] [[(1, 1), (2, 2)]]).1 : ℚ))
        / (((compute_precision [⟨[(1, 1)], [(1, 1), (2, 2)]⟩] [[(1, 1), (2, 2)]]).2 : ℚ)
          + ((compute_recall [⟨[(1, 1)], [(1, 1), (2, 2)]⟩]
            [[(1, 1), (2, 2)]]).2 : ℚ))) :=
  compute_aer_formula.1 [⟨[(1, 1)], [(1, 1), (2, 2)]⟩] [[(1, 1), (2, 2)]] (by decide)

/-- C4: a zero combined denominator makes `compute_aer` abort with
`ZeroDivisionError` (modelled by `none`), never an ordinary number. -/
theorem compute_aer_zero_denominator (reference : List LabeledAlignment)
    (predicted : List (List (ℤ × ℤ)))
    (h : (compute_precision reference predicted).2
      + (compute_recall reference predicted).2 = 0) :
    compute_aer reference predicted = none := by
  simp only [compute_aer, if_pos h]

/-- C4 witness: on empty inputs the combined denominator is `0` and the
computation aborts. -/
theorem compute_aer_zero_denominator_witness : compute_aer [] [] = none :=
  compute_aer_zero_denominator [] [] (by decide)

theorem zip_take_min {α β : Type} (l1 : List α) (l2 : List β) :
    l1.zip l2 = (l1.take (min l1.length l2.length)).zip
      (l2.take (min l1.length l2.length)) := by
  rw [List.zip_eq_zipWith, List.zip_eq_zipWith, ← List.take_zipWith]
  rw [List.take_of_length_le (by simp [List.length_zipWith])]

/-- C10: on sequences of unequal length, `zip` silently drops the extra
trailing entries: all three metrics equal their value on the first
`min(len(reference), len(predicted))` sentences of each input, and no
error occurs (the truncated computation is an ordinary value). -/
theorem metrics_truncate (reference : List LabeledAlignment)
    (predicted : List (List (ℤ × ℤ))) :
    compute_precision reference predicted
      = compute_precision (reference.take (min reference.length predicted.length))
          (predicted.take (min reference.length predicted.length))
    ∧ compute_recall reference predicted
      = compute_recall (reference.take (min reference.length predicted.length))
          (predicted.take (min reference.length predicted.length))
    ∧ compute_aer reference predicted
      = compute_aer (reference.take (min reference.length predicted.length))
          (predicted.take (min reference.length predicted.length)) := by
  have hz := zip_take_min reference predicted
  have hp : compute_precision reference predicted
      = compute_precision (reference.take (min reference.length predicted.length))
          (predicted.take (min reference.length predicted.length)) := by
    simp only [compute_precision]
    rw [← hz]
  have hr : compute_recall reference predicted
      = compute_recall (reference.take (min reference.length predicted.length))
          (predicted.take (min reference.length predicted.length)) := by
    simp only [compute_recall]
    rw [← hz]
  refine ⟨hp, hr, ?_⟩
  simp only [compute_aer]
  rw [hp, hr]

/-- C8 counterexample: on the raw text `"&amp;"`, whose ampersand is
already part of a markup escape, the normalization of line 53 still
rewrites it, producing `"&amp;amp;"` instead of leaving the escape
unchanged. -/
theorem escapeAmpersands_rewrites_escapes :
    escapeAmpersands ("&amp;".data) = "&amp;amp;".data
    ∧ escapeAmpersands ("&amp;".data) ≠ "&amp;".data := by
  constructor
  · decide
  · decide

/-- C8 (amended): the normalization escapes every literal ampersand of
the raw text, including ampersands that are already part of a markup
escape; afterwards every ampersand in the text starts an `&amp;`
sequence, and text without ampersands is unchanged. -/
theorem escapeAmpersands_spec (s : List Char) :
    ampsEscaped (escapeAmpersands s) = true
    ∧ ('&' ∉ s → escapeAmpersands s = s) := by
  constructor
  · induction s with
    | nil => rfl
    | cons c t ih =>
        by_cases hc : c = '&'
        · subst hc
          simpa [escapeAmpersands, ampsEscaped, List.isPrefixOf] using ih
        · simpa [escapeAmpersands, ampsEscaped, hc] using ih
  · intro hmem
    induction s with
    | nil => rfl
    | cons c t ih =>
        have hc : c ≠ '&' := fun h => hmem (h ▸ List.mem_cons_self c t)
        have ht : '&' ∉ t := fun h => hmem (List.mem_cons_of_mem c h)
        simp only [escapeAmpersands, List.flatMap_cons, if_neg hc]
        simpa [escapeAmpersands] using ih ht

/-- C8 witness: on `"abc"` (no ampersand) the normalization is the
identity and the result is well escaped. -/
theorem escapeAmpersands_spec_witness :
    ampsEscaped (escapeAmpersands ("abc".data)) = true
    ∧ escapeAmpersands ("abc".data) = "abc".data :=
  ⟨(escapeAmpersands_spec ("abc".data)).1,
   (escapeAmpersands_spec ("abc".data)).2 (by decide)⟩

theorem mapOptionAll_eq_none {α β : Type} (f : α → Option β) :
    ∀ (l : List α) (x : α), x ∈ l → f x = none → mapOptionAll f l = none := by
  intro l
  induction l with
  | nil => intro x hx _; cases hx
  | cons y ys ih =>
      intro x hx hf
      rcases List.mem_cons.mp hx with h | h
      · subst h
        simp [mapOptionAll, hf]
      · cases hy : f y
        · simp [mapOptionAll, hy]
        · simp [mapOptionAll, hy, ih x h hf]

theorem extractBlock_short (b : List (Option String)) (h : b.length < 4) :
    ∃ e, extractBlock b = Except.error e := by
  match b, h with
  | [], _ => exact ⟨_, rfl⟩
  | [t0], _ => exact ⟨_, rfl⟩
  | [t0, t1], _ => exact ⟨_, rfl⟩
  | [t0, t1, t2], _ => exact ⟨_, rfl⟩
  | t0 :: t1 :: t2 :: t3 :: rest, h => simp at h; omega

theorem extractBlock_field_error (b : List (Option String)) (t : Option String)
    (ht : b.get? 2 = some t ∨ b.get? 3 = some t)
    (hs : ∃ s ∈ splitField t, parsePairStr s = none) :
    ∃ e, extractBlock b = Except.error e := by
  obtain ⟨s, hsmem, hsnone⟩ := hs
  match b with
  | [] => exact extractBlock_short [] (by simp)
  | [t0] => exact extractBlock_short [t0] (by simp)
  | [t0, t1] => exact extractBlock_short [t0, t1] (by simp)
  | [t0, t1, t2] => exact extractBlock_short [t0, t1, t2] (by simp)
  | t0 :: t1 :: t2 :: t3 :: rest =>
      rcases ht with ht | ht
      · have h2 : t2 = t := by simpa using ht
        rw [h2] at *
        have hnone := mapOptionAll_eq_none parsePairStr (splitField t) s hsmem hsnone
        exact ⟨"ValueError: invalid literal for int", by simp [extractBlock, hnone]⟩
      · have h3 : t3 = t := by simpa using ht
        rw [h3] at *
        have hnone := mapOptionAll_eq_none parsePairStr (splitField t) s hsmem hsnone
        cases h2 : mapOptionAll parsePairStr (splitField t2) with
        | none =>
            exact ⟨"ValueError: invalid literal for int", by simp [extractBlock, h2]⟩
        | some su =>
            exact ⟨"ValueError: invalid literal for int",
              by simp [extractBlock, h2, hnone]⟩

theorem mapExceptAll_extract_error :
    ∀ (blocks : List (List (Option String))) (b : List (Option String)) (e : String),
      b ∈ blocks → extractBlock b = Except.error e →
      ∃ e2, mapExceptAll extractBlock blocks = Except.error e2 := by
  intro blocks
  induction blocks with
  | nil => intro b e hb _; cases hb
  | cons y ys ih =>
      intro b e hb he
      rcases List.mem_cons.mp hb with h | hmem
      · subst h
        exact ⟨e, by simp [mapExceptAll, he]⟩
      · cases hy : extractBlock y with
        | error e0 => exact ⟨e0, by simp [mapExceptAll, hy]⟩
        | ok v =>
            obtain ⟨e2, h2⟩ := ih b e hmem he
            exact ⟨e2, by simp [mapExceptAll, hy, h2]⟩

/-- C9 counterexample: the block `[some "a b", some "c", some "1-2-3", none]`
contains the malformed alignment pair `"1-2-3"` (three hyphen-separated
integers, not exactly two), yet `extract_sentences` accepts it without any
error, silently producing the 3-tuple `(1, 2, 3)` as a sure alignment. -/
theorem extract_accepts_arity_three :
    extract_sentences_blocks [[some "a b", some "c", some "1-2-3", none]]
      = Except.ok ([⟨["a", "b"], ["c"]⟩], [⟨[[1, 2, 3]], []⟩]) := rfl

/-- C9 (amended): a structurally incomplete block (fewer than 4 fields)
or an alignment pair with a non-integer hyphen-separated component makes
`extract_sentences` abort with a diagnosable error (`IndexError` /
`ValueError`), which propagates from the failing block to the whole
extraction; however a pair of hyphen-separated integers whose arity is
not two is silently accepted as a tuple of that arity, not rejected. -/
theorem extract_sentences_abort_spec :
    (∀ b : List (Option String), b.length < 4 → ∃ e, extractBlock b = Except.error e)
    ∧ (∀ (b : List (Option String)) (t : Option String),
        (b.get? 2 = some t ∨ b.get? 3 = some t) →
        (∃ s ∈ splitField t, parsePairStr s = none) →
        ∃ e, extractBlock b = Except.error e)
    ∧ (∀ s : String, (∃ c ∈ pySplitChar '-' s, pyInt c = none) → parsePairStr s = none)
    ∧ (∀ (blocks : List (List (Option String))) (b : List (Option String)),
        b ∈ blocks → (∃ e, extractBlock b = Except.error e) →
        ∃ e2, extract_sentences_blocks blocks = Except.error e2) := by
  refine ⟨extractBlock_short, extractBlock_field_error, ?_, ?_⟩
  · intro s hc
    obtain ⟨c, hcmem, hcnone⟩ := hc
    exact mapOptionAll_eq_none pyInt (pySplitChar '-' s) c hcmem hcnone
  · intro blocks b hb he
    obtain ⟨e, he⟩ := he
    obtain ⟨e2, h2⟩ := mapExceptAll_extract_error blocks b e hb he
    exact ⟨e2, by simp [extract_sentences_blocks, h2]⟩

/-- C9 witness: a corpus whose only block holds the alignment pair
`"x-5"` (non-integer position) makes the whole extraction abort. -/
theorem extract_sentences_abort_spec_witness :
    ∃ e2, extract_sentences_blocks [[some "a", some "b", some "x-5", none]]
      = Except.error e2 :=
  extract_sentences_abort_spec.2.2.2 [[some "a", some "b", some "x-5", none]]
    [some "a", some "b", some "x-5", none] (by decide)
    ⟨"ValueError: invalid literal for int", rfl⟩

/-! ## Vocabulary builder: refinement to the first-occurrence description -/

theorem dictContains_withIndicesFrom (w : String) :
    ∀ (ks : List String) (n : ℕ),
      dictContains (withIndicesFrom n ks) w = ks.any (fun k => k == w) := by
  intro ks
  induction ks with
  | nil => intro n; rfl
  | cons k t ih =>
      intro n
      simp only [withIndicesFrom, dictContains, List.any_cons] at ih ⊢
      rw [ih (n + 1)]

theorem withIndicesFrom_append (w : String) :
    ∀ (ks : List String) (n : ℕ),
      withIndicesFrom n (ks ++ [w]) = withIndicesFrom n ks ++ [(w, n + ks.length)] := by
  intro ks
  induction ks with
  | nil => intro n; simp [withIndicesFrom]
  | cons k t ih =>
      intro n
      have harith : n + 1 + t.length = n + (t.length + 1) := by omega
      simp [withIndicesFrom, ih (n + 1), harith]

theorem vocab_foldl :
    ∀ (l : List String) (ks : List String),
      l.foldl vocabStep (withIndices ks, ks.length)
        = (withIndices (firstOccFrom ks l), (firstOccFrom ks l).length) := by
  intro l
  induction l with
  | nil => intro ks; rfl
  | cons w ws ih =>
      intro ks
      simp only [List.foldl_cons, firstOccFrom] at ih ⊢
      by_cases hw : ks.any (fun k => k == w)
      · have hstep : vocabStep (withIndices ks, ks.length) w = (withIndices ks, ks.length) := by
          simp [vocabStep, withIndices, dictContains_withIndicesFrom, hw]
        rw [hstep, if_pos hw]
        exact ih ks
      · have hstep : vocabStep (withIndices ks, ks.length) w
            = (withIndices (ks ++ [w]), (ks ++ [w]).length) := by
          simp [vocabStep, withIndices, dictContains_withIndicesFrom, hw,
            withIndicesFrom_append]
        rw [hstep, if_neg hw]
        exact ih (ks ++ [w])

theorem foldl_vocab_split :
    ∀ (l : List SentencePair) (ab : (PyDict × ℕ) × (PyDict × ℕ)),
      l.foldl (fun st sp =>
          (sp.source.foldl vocabStep st.1, sp.target.foldl vocabStep st.2)) ab
        = (l.foldl (fun a sp => sp.source.foldl vocabStep a) ab.1,
           l.foldl (fun a sp => sp.target.foldl vocabStep a) ab.2) := by
  intro l
  induction l with
  | nil => intro ab; rfl
  | cons x xs ih => intro ab; simp [List.foldl_cons, ih]

theorem gtti_none (sentence_pairs : List SentencePair) :
    get_token_to_index sentence_pairs none
      = (withIndices (firstOcc ((sentence_pairs.map SentencePair.source).flatten)),
         withIndices (firstOcc ((sentence_pairs.map SentencePair.target).flatten))) := by
  simp only [get_token_to_index]
  rw [foldl_vocab_split]
  have hsrc : sentence_pairs.foldl (fun a sp => sp.source.foldl vocabStep a)
        (([] : PyDict), 0)
      = ((sentence_pairs.map SentencePair.source).flatten).foldl vocabStep
        (([] : PyDict), 0) := by
    rw [List.foldl_flatten, List.foldl_map]
  have htgt : sentence_pairs.foldl (fun a sp => sp.target.foldl vocabStep a)
        (([] : PyDict), 0)
      = ((sentence_pairs.map SentencePair.target).flatten).foldl vocabStep
        (([] : PyDict), 0) := by
    rw [List.foldl_flatten, List.foldl_map]
  have hinit : ((([] : PyDict), 0) : PyDict × ℕ) = (withIndices [], ([] : List String).length) := rfl
  rw [hsrc, htgt, hinit, vocab_foldl, vocab_foldl]
  simp [firstOcc]

theorem enumFrom_withIndices (l : List (String × ℕ)) :
    ∀ n, (l.enumFrom n).map (fun p => (p.2.1, p.1))
      = withIndicesFrom n (l.map Prod.fst) := by
  induction l with
  | nil => intro n; rfl
  | cons x xs ih => intro n; simp [List.enumFrom, withIndicesFrom, ih (n + 1)]

theorem enum_withIndices (l : List (String × ℕ)) :
    l.enum.map (fun p => (p.2.1, p.1)) = withIndices (l.map Prod.fst) :=
  enumFrom_withIndices l 0

theorem gtti_some (sentence_pairs : List SentencePair) (k : ℕ) :
    get_token_to_index sentence_pairs (some k)
      = (withIndices (((most_common (sentence_pairs.foldl
            (fun c sp => counterAdd c sp.source) [])).take k).map Prod.fst),
         withIndices (((most_common (sentence_pairs.foldl
            (fun c sp => counterAdd c sp.target) [])).take k).map Prod.fst)) := by
  simp only [get_token_to_index]
  rw [enum_withIndices, enum_withIndices]

theorem withIndicesFrom_snd :
    ∀ (ks : List String) (n : ℕ),
      (withIndicesFrom n ks).map Prod.snd = List.range' n ks.length := by
  intro ks
  induction ks with
  | nil => intro n; rfl
  | cons kk t ih => intro n; simp [withIndicesFrom, List.range', ih (n + 1)]

theorem withIndices_snd (ks : List String) :
    (withIndices ks).map Prod.snd = List.range ks.length := by
  rw [withIndices, withIndicesFrom_snd, List.range_eq_range']

theorem withIndices_length (ks : List String) :
    (withIndices ks).length = ks.length := by
  have h := congrArg List.length (withIndices_snd ks)
  simpa using h

theorem withIndices_contiguous (ks : List String) :
    (withIndices ks).map Prod.snd = List.range (withIndices ks).length := by
  rw [withIndices_length, withIndices_snd]

/-- C7: the vocabularies built by `get_token_to_index` have unique index
values, contiguous from `0` (the value list is exactly
`range (dict size)`), in both modes; with no cutoff each language's dict
maps the distinct tokens of its side of the corpus scan, in
first-occurrence order (source and target scanned independently), to
`0, 1, 2, ...` in that order; with cutoff `k` each dict holds at most `k`
entries (the top of the `most_common` ranking), indexed `0..k-1`. -/
theorem get_token_to_index_spec (sentence_pairs : List SentencePair) (k : ℕ) :
    ((get_token_to_index sentence_pairs none).1
        = withIndices (firstOcc ((sentence_pairs.map SentencePair.source).flatten))
      ∧ (get_token_to_index sentence_pairs none).2
        = withIndices (firstOcc ((sentence_pairs.map SentencePair.target).flatten)))
    ∧ ((get_token_to_index sentence_pairs none).1.map Prod.snd
        = List.range (get_token_to_index sentence_pairs none).1.length
      ∧ (get_token_to_index sentence_pairs none).2.map Prod.snd
        = List.range (get_token_to_index sentence_pairs none).2.length)
    ∧ ((get_token_to_index sentence_pairs (some k)).1.map Prod.snd
        = List.range (get_token_to_index sentence_pairs (some k)).1.length
      ∧ (get_token_to_index sentence_pairs (some k)).2.map Prod.snd
        = List.range (get_token_to_index sentence_pairs (some k)).2.length)
    ∧ ((get_token_to_index sentence_pairs (some k)).1.length ≤ k
      ∧ (get_token_to_index sentence_pairs (some k)).2.length ≤ k) := by
  have hn := gtti_none sentence_pairs
  have hs := gtti_some sentence_pairs k
  refine ⟨⟨?_, ?_⟩, ⟨?_, ?_⟩, ⟨?_, ?_⟩, ⟨?_, ?_⟩⟩
  · rw [hn]
  · rw [hn]
  · rw [hn]; exact withIndices_contiguous _
  · rw [hn]; exact withIndices_contiguous _
  · rw [hs]; exact withIndices_contiguous _
  · rw [hs]; exact withIndices_contiguous _
  · rw [hs, withIndices_length]
    simp only [List.length_map, List.length_take]
    exact min_le_left _ _
  · rw [hs, withIndices_length]
    simp only [List.length_map, List.length_take]
    exact min_le_left _ _

/-! ## Tokenizer: refinement to the filter-map description -/

theorem dictGet_isSome (d : PyDict) (w : String) :
    (dictGet d w).isSome = dictContains d w := by
  induction d with
  | nil => rfl
  | cons p t ih =>
      simp only [dictGet, dictContains, List.find?_cons, List.any_cons]
      cases hp : (p.1 == w)
      · simpa [hp, dictGet, dictContains] using ih
      · simp [hp]

theorem mapTokens_eq (d : PyDict) :
    ∀ toks : List String,
      mapTokens d toks
        = if toks.all (dictContains d)
          then some (toks.map (fun w => (dictGet d w).getD 0))
          else none := by
  intro toks
  induction toks with
  | nil => rfl
  | cons w ws ih =>
      simp only [mapTokens, List.all_cons]
      cases hw : dictGet d w with
      | none =>
          have hc : dictContains d w = false := by
            rw [← dictGet_isSome, hw]
            rfl
          simp [hc]
      | some j =>
          have hc : dictContains d w = true := by
            rw [← dictGet_isSome, hw]
            rfl
          rw [ih]
          by_cases hall : ws.all (dictContains d) = true
          · simp [hc, hall, hw]
          · simp [hc, hall]

theorem tokenize_foldl (sd td : PyDict) :
    ∀ (sps : List SentencePair) (res : List TokenizedSentencePair),
      sps.foldl (fun res sp =>
        match mapTokens sd sp.source with
        | none => res
        | some src =>
            match mapTokens td sp.target with
            | none => res
            | some tgt => res ++ [⟨src, tgt⟩]) res
        = res ++ tokenizeSpec sps sd td := by
  intro sps
  induction sps with
  | nil => intro res; simp [tokenizeSpec]
  | cons sp sps ih =>
      intro res
      simp only [List.foldl_cons]
      rw [mapTokens_eq sd, mapTokens_eq td]
      cases hsall : sp.source.all (dictContains sd)
      · rw [ih]
        simp [tokenizeSpec, List.filter_cons, hsall]
      · cases htall : sp.target.all (dictContains td)
        · rw [ih]
          simp [tokenizeSpec, List.filter_cons, hsall, htall]
        · rw [ih]
          simp [tokenizeSpec, List.filter_cons, hsall, htall]

theorem tokenize_sents_eq_spec (sps : List SentencePair) (sd td : PyDict) :
    tokenize_sents sps sd td = tokenizeSpec sps sd td := by
  have h := tokenize_foldl sd td sps []
  simpa [tokenize_sents] using h

theorem dictGet_mem_values (d : PyDict) (w : String) (i : ℕ)
    (h : dictGet d w = some i) : i ∈ d.map Prod.snd := by
  simp only [dictGet, Option.map_eq_some'] at h
  obtain ⟨p, hp, hpi⟩ := h
  exact hpi ▸ List.mem_map_of_mem Prod.snd (List.mem_of_find?_eq_some hp)

theorem withIndices_get_lt (ks : List String) (w : String) (i : ℕ)
    (h : dictGet (withIndices ks) w = some i) : i < (withIndices ks).length := by
  have hmem := dictGet_mem_values _ _ _ h
  rw [withIndices_contiguous] at hmem
  exact List.mem_range.mp hmem

theorem tokenizeSpec_bounded (sps : List SentencePair) (ks1 ks2 : List String) :
    ∀ tsp ∈ tokenizeSpec sps (withIndices ks1) (withIndices ks2),
      (∀ i ∈ tsp.source_tokens, i < (withIndices ks1).length)
      ∧ (∀ i ∈ tsp.target_tokens, i < (withIndices ks2).length) := by
  intro tsp htsp
  simp only [tokenizeSpec, List.mem_map] at htsp
  obtain ⟨sp, hsp, rfl⟩ := htsp
  obtain ⟨hmem, hcond⟩ := List.mem_filter.mp hsp
  rw [Bool.and_eq_true] at hcond
  constructor
  · intro i hi
    simp only [List.mem_map] at hi
    obtain ⟨w, hw, rfl⟩ := hi
    have hc : dictContains (withIndices ks1) w = true := by
      have hall := hcond.1
      rw [List.all_eq_true] at hall
      exact hall w hw
    have hget : (dictGet (withIndices ks1) w).isSome := by rw [dictGet_isSome, hc]
    obtain ⟨j, hj⟩ := Option.isSome_iff_exists.mp hget
    rw [hj]
    simpa using withIndices_get_lt ks1 w j hj
  · intro i hi
    simp only [List.mem_map] at hi
    obtain ⟨w, hw, rfl⟩ := hi
    have hc : dictContains (withIndices ks2) w = true := by
      have hall := hcond.2
      rw [List.all_eq_true] at hall
      exact hall w hw
    have hget : (dictGet (withIndices ks2) w).isSome := by rw [dictGet_isSome, hc]
    obtain ⟨j, hj⟩ := Option.isSome_iff_exists.mp hget
    rw [hj]
    simpa using withIndices_get_lt ks2 w j hj

theorem gtti_shape (corpus : List SentencePair) (co : Option ℕ) :
    ∃ ks1 ks2, get_token_to_index corpus co = (withIndices ks1, withIndices ks2) := by
  cases co with
  | none => exact ⟨_, _, gtti_none corpus⟩
  | some k => exact ⟨_, _, gtti_some corpus k⟩

/-- C6: `tokenize_sents` emits exactly the sentence pairs all of whose
source tokens are keys of the source vocabulary and all of whose target
tokens are keys of the target vocabulary — fully mapped, never
partially, in their original relative order (the declarative filter-map
`tokenizeSpec`); the output length never exceeds the input length; and
with vocabularies produced by `get_token_to_index`, every emitted index
is below the respective vocabulary's size. -/
theorem tokenize_sents_spec :
    (∀ (sps : List SentencePair) (sd td : PyDict),
        tokenize_sents sps sd td = tokenizeSpec sps sd td
        ∧ (tokenize_sents sps sd td).length ≤ sps.length)
    ∧ (∀ (sps corpus : List SentencePair) (co : Option ℕ),
        ∀ tsp ∈ tokenize_sents sps (get_token_to_index corpus co).1
            (get_token_to_index corpus co).2,
          (∀ i ∈ tsp.source_tokens, i < (get_token_to_index corpus co).1.length)
          ∧ (∀ i ∈ tsp.target_tokens, i < (get_token_to_index corpus co).2.length)) := by
  constructor
  · intro sps sd td
    refine ⟨tokenize_sents_eq_spec sps sd td, ?_⟩
    rw [tokenize_sents_eq_spec]
    simp only [tokenizeSpec, List.length_map]
    exact List.length_filter_le _ _
  · intro sps corpus co tsp htsp
    obtain ⟨ks1, ks2, hk⟩ := gtti_shape corpus co
    simp only [hk] at htsp ⊢
    rw [tokenize_sents_eq_spec] at htsp
    exact tokenizeSpec_bounded sps ks1 ks2 tsp htsp

/-- C6 witness: with the vocabularies built from the one-sentence corpus
`[⟨["a"], ["c"]⟩]`, the tokenized pair `⟨[0], [0]⟩` is emitted and its
indices are below the vocabulary sizes. -/
theorem tokenize_sents_spec_witness :
    (∀ i ∈ ([0] : List ℕ), i < (get_token_to_index [⟨["a"], ["c"]⟩] none).1.length)
    ∧ (∀ i ∈ ([0] : List ℕ), i < (get_token_to_index [⟨["a"], ["c"]⟩] none).2.length) :=
  tokenize_sents_spec.2 [⟨["a"], ["c"]⟩] [⟨["a"], ["c"]⟩] none ⟨[0], [0]⟩ (by decide)
